import Mathlib

/-!
# Verification of the business-card output cleaner

A shallow embedding of `src/output_cleaner.py` (class `OutputCleaner`): the
field extractor `extract_json_from_response`, the reconciler/normalizer
`clean_business_card_data` with its helpers `_clean_field_value`,
`_clean_phone_number`, `_clean_email`, and the assembler
`create_final_result`.

Python strings are modelled as Lean `String`s; the Python string methods the
source uses (`strip`, `lower`, `split`, the `in` substring test, `str()`)
are modelled as executable functions on the underlying character lists.
JSON values produced by `json.loads` are modelled by the inductive type
`Json`.  The modelled fragment of `json.loads` covers null, booleans,
integer numbers, strings (with the standard escapes), arrays and objects;
float literals and the `NaN`/`Infinity` extensions are outside the model
(no claim touches them), and `\u` escapes map surrogate code points to the
replacement behaviour of `Char.ofNat`.  Python `str.strip`/`str.lower` are
modelled on their ASCII fragment (the repository's data is ASCII and Korean,
and Korean has no case or extra whitespace forms).
-/

/-- A parsed JSON value, as produced by `json.loads`.  Objects keep their
members in parse order; Python `dict` semantics (last duplicate wins) live in
the lookup function `dictGet`.  Numbers are modelled as integers. -/
inductive Json where
  | null
  | bool (b : Bool)
  | num (n : Int)
  | str (s : String)
  | arr (elems : List Json)
  | obj (members : List (String × Json))

/-- Python `dict` lookup on an insertion-ordered association list: the value
of the LAST binding of the key (later assignments overwrite earlier ones). -/
def dictGet {α : Type} (kvs : List (String × α)) (k : String) : Option α :=
  match kvs with
  | [] => none
  | (k', v) :: rest =>
    match dictGet rest k with
    | some v' => some v'
    | none => if k' = k then some v else none

/-! ## Characters -/

/-- The whitespace stripped by Python `str.strip()` (ASCII fragment):
space, tab, newline, carriage return, vertical tab, form feed. -/
def isPyWs (c : Char) : Bool :=
  decide (c.toNat = 32 ∨ c.toNat = 9 ∨ c.toNat = 10 ∨ c.toNat = 13 ∨
    c.toNat = 11 ∨ c.toNat = 12)

/-- ASCII decimal digit `0`-`9`. -/
def isDigitChar (c : Char) : Bool := decide (48 ≤ c.toNat ∧ c.toNat ≤ 57)

/-- ASCII letter, upper or lower case. -/
def isAlphaChar (c : Char) : Bool :=
  decide ((65 ≤ c.toNat ∧ c.toNat ≤ 90) ∨ (97 ≤ c.toNat ∧ c.toNat ≤ 122))

/-- Python `str.lower` on one character (ASCII fragment). -/
def toLowerChar (c : Char) : Char :=
  if 65 ≤ c.toNat ∧ c.toNat ≤ 90 then Char.ofNat (c.toNat + 32) else c

/-! ## Python string primitives -/

/-- `str.strip()` on the character list. -/
def stripL (cs : List Char) : List Char :=
  (((cs.dropWhile isPyWs).reverse.dropWhile isPyWs)).reverse

/-- Python `str.strip()`. -/
def pyStrip (s : String) : String := ⟨stripL s.data⟩

/-- Python `str.lower()` (ASCII fragment). -/
def pyLower (s : String) : String := ⟨s.data.map toLowerChar⟩

/-- Split a list at the first occurrence of `sep`: returns the text before
it and the text after it, or `none` when `sep` does not occur.  `fuel`
bounds the scan; callers pass `cs.length + 1`, which always suffices. -/
def findSplit (sep : List Char) : Nat → List Char → Option (List Char × List Char)
  | 0, _ => none
  | fuel + 1, cs =>
    if sep.isPrefixOf cs then some ([], cs.drop sep.length)
    else
      match cs with
      | [] => none
      | c :: rest =>
        match findSplit sep fuel rest with
        | some (pre, post) => some (c :: pre, post)
        | none => none

/-- Python's substring test `sep in s` (for non-empty `sep`). -/
def containsSub (sep cs : List Char) : Bool :=
  (findSplit sep (cs.length + 1) cs).isSome

/-- Python `s.split(sep)` (non-empty `sep`): the chunks between the
non-overlapping occurrences of `sep`, scanned left to right. -/
def pySplitAux (sep : List Char) : Nat → List Char → List (List Char)
  | 0, cs => [cs]
  | fuel + 1, cs =>
    match findSplit sep (cs.length + 1) cs with
    | none => [cs]
    | some (pre, post) => pre :: pySplitAux sep fuel post

/-- Python `s.split(sep)` for non-empty `sep`. -/
def pySplit (sep cs : List Char) : List (List Char) :=
  pySplitAux sep (cs.length + 1) cs

/-! ## Python `str()` of a parsed JSON value -/

/-- Decimal digits of a natural number (fuel-structural so it reduces). -/
def natDecAux : Nat → Nat → List Char
  | 0, _ => []
  | fuel + 1, n =>
    if n < 10 then [Char.ofNat (48 + n)]
    else natDecAux fuel (n / 10) ++ [Char.ofNat (48 + n % 10)]

/-- Decimal representation of a natural number. -/
def natDec (n : Nat) : String := ⟨natDecAux (n + 1) n⟩

/-- Python `str()` of an int. -/
def intDec (n : Int) : String :=
  if n < 0 then "-" ++ natDec (-n).toNat else natDec n.toNat

/-- Python `repr()` of a string: quote selection and the common escapes.
(The `\xNN` escapes Python applies to other control characters are not
modelled; no claim depends on them.) -/
def pyReprStr (s : String) : String :=
  let q : Char := if s.data.contains '\'' && !(s.data.contains '"') then '"' else '\''
  let esc : Char → List Char := fun c =>
    if c = '\\' then ['\\', '\\']
    else if c = q then ['\\', q]
    else if c = '\n' then ['\\', 'n']
    else if c = '\r' then ['\\', 'r']
    else if c = '\t' then ['\\', 't']
    else [c]
  ⟨q :: (s.data.flatMap esc) ++ [q]⟩

mutual
/-- Python `repr()` of a parsed JSON value. -/
def pyRepr : Json → String
  | .null => "None"
  | .bool b => if b then "True" else "False"
  | .num n => intDec n
  | .str s => pyReprStr s
  | .arr es => "[" ++ pyReprArr es ++ "]"
  | .obj ms => "\x7b" ++ pyReprObj ms ++ "\x7d"

/-- `repr` of a list's elements, comma-separated. -/
def pyReprArr : List Json → String
  | [] => ""
  | [e] => pyRepr e
  | e :: es => pyRepr e ++ ", " ++ pyReprArr es

/-- `repr` of a dict's members, comma-separated. -/
def pyReprObj : List (String × Json) → String
  | [] => ""
  | [(k, v)] => pyReprStr k ++ ": " ++ pyRepr v
  | (k, v) :: ms => pyReprStr k ++ ": " ++ pyRepr v ++ ", " ++ pyReprObj ms
end

/-- Python `str()` of a parsed JSON value: a string is returned verbatim,
everything else prints as its `repr`. -/
def pyStr : Json → String
  | .str s => s
  | v => pyRepr v

/-- Python truthiness of a parsed JSON value: `None`, `False`, `0`, `""`,
`[]` and the empty dict are falsy. -/
def pyTruthy : Json → Bool
  | .null => false
  | .bool b => b
  | .num n => decide (n ≠ 0)
  | .str s => !(s == "")
  | .arr es => !es.isEmpty
  | .obj ms => !ms.isEmpty

/-! ## A model of `json.loads`

Structural on a fuel counter (callers pass `length + 1`, which suffices:
each recursive step consumes at least one character or one nesting level),
so every function reduces in the kernel.  The fragment modelled: null,
booleans, integer numbers (with JSON's no-leading-zero rule), strings with
the standard escapes (control characters rejected, as in Python's default
strict mode), arrays and objects (duplicate keys kept in parse order;
`dictGet` gives the last one, as a Python dict would). -/

/-- JSON insignificant whitespace: space, tab, newline, carriage return. -/
def isJsonWs (c : Char) : Bool :=
  decide (c.toNat = 32 ∨ c.toNat = 9 ∨ c.toNat = 10 ∨ c.toNat = 13)

/-- Skip insignificant whitespace. -/
def skipWs (cs : List Char) : List Char := cs.dropWhile isJsonWs

/-- Longest prefix of decimal digits, and the rest. -/
def takeDigits (cs : List Char) : List Char × List Char :=
  (cs.takeWhile isDigitChar, cs.dropWhile isDigitChar)

/-- Value of a digit string. -/
def digitsToNat (ds : List Char) : Nat :=
  ds.foldl (fun acc c => acc * 10 + (c.toNat - 48)) 0

/-- Hex digit value. -/
def hexVal (c : Char) : Option Nat :=
  if 48 ≤ c.toNat ∧ c.toNat ≤ 57 then some (c.toNat - 48)
  else if 97 ≤ c.toNat ∧ c.toNat ≤ 102 then some (c.toNat - 97 + 10)
  else if 65 ≤ c.toNat ∧ c.toNat ≤ 70 then some (c.toNat - 65 + 10)
  else none

/-- The one-letter escapes of a JSON string, as the code point each one
denotes: quote, backslash, slash, backspace, form feed, newline, carriage
return, tab. -/
def escCode (c : Char) : Option Nat :=
  if c.toNat = 34 ∨ c.toNat = 92 ∨ c.toNat = 47 then some c.toNat
  else if c = 'b' then some 8
  else if c = 'f' then some 12
  else if c = 'n' then some 10
  else if c = 'r' then some 13
  else if c = 't' then some 9
  else none

/-- Parse the rest of a JSON string after the opening quote.  Control
characters are rejected (Python's default strict mode). -/
def parseStrAux (acc : List Char) : List Char → Option (String × List Char)
  | '"' :: rest => some (⟨acc.reverse⟩, rest)
  | '\\' :: 'u' :: a :: b :: c :: d :: rest =>
    (match hexVal a, hexVal b, hexVal c, hexVal d with
     | some va, some vb, some vc, some vd =>
       parseStrAux (Char.ofNat (((va * 16 + vb) * 16 + vc) * 16 + vd) :: acc) rest
     | _, _, _, _ => none)
  | '\\' :: e :: rest =>
    (match escCode e with
     | some n => parseStrAux (Char.ofNat n :: acc) rest
     | none => none)
  | c :: rest => if c.toNat < 32 then none else parseStrAux (c :: acc) rest
  | [] => none

/-- Parse a JSON integer literal: optional minus, then `0` or a nonzero
digit followed by digits (the grammar's no-leading-zero rule). -/
def parseNum (cs : List Char) : Option (Int × List Char) :=
  match cs with
  | '-' :: c :: r =>
    if c = '0' then some (0, r)
    else if isDigitChar c then
      let (ds, r') := takeDigits (c :: r)
      some (-(digitsToNat ds : Int), r')
    else none
  | c :: r =>
    if c = '0' then some (0, r)
    else if isDigitChar c then
      let (ds, r') := takeDigits (c :: r)
      some ((digitsToNat ds : Int), r')
    else none
  | [] => none

/-- Parse one-or-more comma-separated array elements up to the closing
bracket, using `p` for each element. -/
def parseElems (p : List Char → Option (Json × List Char)) :
    Nat → List Char → Option (List Json × List Char)
  | 0, _ => none
  | fuel + 1, cs =>
    match p cs with
    | none => none
    | some (v, r) =>
      match skipWs r with
      | ',' :: r' =>
        (match parseElems p fuel r' with
         | some (vs, r'') => some (v :: vs, r'')
         | none => none)
      | ']' :: r' => some ([v], r')
      | _ => none

/-- Parse one-or-more comma-separated object members up to the closing
brace, using `p` for each member value. -/
def parseMembers (p : List Char → Option (Json × List Char)) :
    Nat → List Char → Option (List (String × Json) × List Char)
  | 0, _ => none
  | fuel + 1, cs =>
    match skipWs cs with
    | '"' :: r =>
      (match parseStrAux [] r with
       | none => none
       | some (key, r1) =>
         match skipWs r1 with
         | ':' :: r2 =>
           (match p r2 with
            | none => none
            | some (v, r3) =>
              match skipWs r3 with
              | ',' :: r4 =>
                (match parseMembers p fuel r4 with
                 | some (ms, r5) => some ((key, v) :: ms, r5)
                 | none => none)
              | '}' :: r4 => some ([(key, v)], r4)
              | _ => none)
         | _ => none)
    | _ => none

/-- Parse one JSON value, returning it and the remaining input. -/
def parseVal : Nat → List Char → Option (Json × List Char)
  | 0, _ => none
  | fuel + 1, cs =>
    match skipWs cs with
    | 'n' :: 'u' :: 'l' :: 'l' :: r => some (.null, r)
    | 't' :: 'r' :: 'u' :: 'e' :: r => some (.bool true, r)
    | 'f' :: 'a' :: 'l' :: 's' :: 'e' :: r => some (.bool false, r)
    | '"' :: r =>
      (match parseStrAux [] r with
       | some (s, r') => some (.str s, r')
       | none => none)
    | '[' :: r =>
      (match skipWs r with
       | ']' :: r' => some (.arr [], r')
       | cs' =>
         match parseElems (parseVal fuel) fuel cs' with
         | some (es, r') => some (.arr es, r')
         | none => none)
    | '{' :: r =>
      (match skipWs r with
       | '}' :: r' => some (.obj [], r')
       | cs' =>
         match parseMembers (parseVal fuel) fuel cs' with
         | some (ms, r') => some (.obj ms, r')
         | none => none)
    | cs' =>
      (match parseNum cs' with
       | some (n, r') => some (.num n, r')
       | none => none)

/-- The model of `json.loads`: parse one value, allow only trailing
whitespace, `none` on any parse failure (Python raises `JSONDecodeError`
there, which `extract_json_from_response` catches). -/
def json_loads (s : String) : Option Json :=
  match parseVal (s.data.length + 1) s.data with
  | some (v, rest) => if (skipWs rest).isEmpty then some v else none
  | none => none

/-! ## `OutputCleaner.extract_json_from_response` -/

/-- The result dict of `extract_json_from_response`: on success a dict with
`success: True` and the parsed `data`; on failure `success: False` with the
error message and the original text kept under `raw_response`.  (The
`detail` of the Python error message, `str(e)`, is not modelled beyond its
presence.) -/
inductive ExtractResult where
  | ok (data : Json)
  | err (raw_response : String)

/-- The fence-stripping step of `extract_json_from_response` (lines 20-25):
the substring handed to `json.loads`. -/
def extractCandidate (response : String) : String :=
  if containsSub "```json".data response.data then
    ⟨stripL ((pySplit "```".data
      ((pySplit "```json".data response.data).getD 1 [])).getD 0 [])⟩
  else if containsSub "```".data response.data then
    ⟨stripL ((pySplit "```".data response.data).getD 1 [])⟩
  else ⟨stripL response.data⟩

/-- `OutputCleaner.extract_json_from_response`: strip a markdown fence if
present, parse, and wrap in the success/failure dict.  (The list indexing
`[1]`/`[0]` in the source is guarded by the `in` checks, so the `getD`
defaults in `extractCandidate` are never used.) -/
def extract_json_from_response (response : String) : ExtractResult :=
  match json_loads (extractCandidate response) with
  | some v => .ok v
  | none => .err response

/-- A raw model response that wraps `j` in a ` ```json ... ``` ` fenced
block, as in the spec's first testable property. -/
def wrapJsonFence (j : String) : String := "```json\n" ++ j ++ "\n```"

/-! ## `OutputCleaner.clean_business_card_data` and helpers -/

/-- The standard-field alias table of `clean_business_card_data`
(lines 57-66 of the source), in its fixed priority order. -/
def field_mapping : List (String × List String) :=
  [("name", ["name", "이름", "성명"]),
   ("phone", ["phone", "전화번호", "휴대폰", "연락처"]),
   ("email", ["email", "이메일", "메일"]),
   ("social_id", ["social_id", "카카오톡", "카톡", "sns"]),
   ("position", ["position", "직위", "직책", "역할"]),
   ("company", ["company", "회사", "기관", "업체"]),
   ("address", ["address", "주소", "소재지"]),
   ("fax", ["fax", "팩스", "팩시밀리"])]

/-- The key-probing loop of `clean_business_card_data` (lines 70-76): the
value of the first alias that is present with a non-`None` value; `none`
when no alias matches. -/
def selectRaw (raw_data : List (String × Json)) : List String → Option Json
  | [] => none
  | k :: rest =>
    match dictGet raw_data k with
    | some Json.null => selectRaw raw_data rest
    | some v => some v
    | none => selectRaw raw_data rest

/-- The reconciliation rule in the spec's words, for comparison with the
source's loop: the value of "the first alias whose value in `candidate` is
present and not the JSON null value". -/
def specFirstPresentNonNull (candidate : List (String × Json))
    (aliases : List String) : Option Json :=
  (aliases.filterMap fun k =>
    match dictGet candidate k with
    | some Json.null => none
    | some v => some v
    | none => none).head?

/-- The guard `value is None or value == ""` opening `_clean_field_value`
(line 98): `None`, or equal to the empty string (only a string compares
equal to `""` in Python). -/
def isNoneOrEmptyStr : Json → Bool
  | .null => true
  | .str s => s == ""
  | _ => false

/-- A character kept by `re.sub(r'[^\d\-+()]', '', phone)`: digit, `-`,
`+`, `(` or `)` (ASCII fragment of `\d`). -/
def phoneKeep (c : Char) : Bool :=
  isDigitChar c || c == '-' || c == '+' || c == '(' || c == ')'

/-- `OutputCleaner._clean_phone_number`: delete every character the class
does not keep; `None` if nothing remains. -/
def _clean_phone_number (phone : String) : Option String :=
  let cleaned : String := ⟨phone.data.filter phoneKeep⟩
  if cleaned = "" then none else some cleaned

/-- A character of the local part of the email pattern, `[a-zA-Z0-9._%+-]`
(the code points are `.` `_` `%` `+` `-`). -/
def isLocalChar (c : Char) : Bool :=
  isAlphaChar c || isDigitChar c ||
    decide (c.toNat = 46 ∨ c.toNat = 95 ∨ c.toNat = 37 ∨ c.toNat = 43 ∨ c.toNat = 45)

/-- A character of the domain part of the email pattern, `[a-zA-Z0-9.-]`
(the code points are `.` `-`). -/
def isDomainChar (c : Char) : Bool :=
  isAlphaChar c || isDigitChar c || decide (c.toNat = 46 ∨ c.toNat = 45)

/-- Decides `re.match(r'^[a-zA-Z0-9._%+-]+@[a-zA-Z0-9.-]+\.[a-zA-Z]{2,}$', s)`.

Since neither character class contains `@`, a match must split at the first
`@`; since the final `[a-zA-Z]{2,}` contains no dot, its dot must be the
last dot after the `@`.  So the regex matches iff this one candidate
decomposition checks out, which is what is computed here (the
characterization is proved as `matchEmail_iff` below).  `re.match`'s `$`
would also accept a trailing newline, but `_clean_email` only ever matches
stripped strings, which cannot end in one. -/
def matchEmail (cs : List Char) : Bool :=
  match cs.dropWhile (· != '@') with
  | [] => false
  | _ :: r =>
    (!(cs.takeWhile (· != '@')).isEmpty) && (cs.takeWhile (· != '@')).all isLocalChar &&
      (match r.reverse.dropWhile (· != '.') with
       | [] => false
       | _ :: dRev =>
         (!dRev.isEmpty) && dRev.all isDomainChar &&
           decide (2 ≤ (r.reverse.takeWhile (· != '.')).length) &&
           (r.reverse.takeWhile (· != '.')).all isAlphaChar)

/-- `OutputCleaner._clean_email`: if the stripped string matches the email
pattern, return it stripped and lower-cased, else `None`. -/
def _clean_email (email : String) : Option String :=
  if matchEmail (pyStrip email).data then some (pyLower (pyStrip email)) else none

/-- `OutputCleaner._clean_field_value`: `None`/empty guard, coerce with
`str()` and strip, drop the case-insensitive absence sentinels, then the
per-field rule — `phone` goes to `_clean_phone_number`, `email` to
`_clean_email`, everything else passes through as the stripped string. -/
def _clean_field_value (value : Json) (field_type : String) : Option String :=
  if isNoneOrEmptyStr value then none
  else if pyStrip (pyStr value) = "" ∨
      ["null", "none", "n/a", "-"].contains (pyLower (pyStrip (pyStr value))) then none
  else if field_type = "phone" then _clean_phone_number (pyStrip (pyStr value))
  else if field_type = "email" then _clean_email (pyStrip (pyStr value))
  else some (pyStrip (pyStr value))

/-- `OutputCleaner.clean_business_card_data`: for each standard field,
probe the aliases in order, then clean the selected value — the Python
`if value:` keeps only truthy selections, everything else becomes `None`. -/
def clean_business_card_data (raw_data : List (String × Json)) :
    List (String × Option String) :=
  field_mapping.map fun fks =>
    (fks.1,
     match selectRaw raw_data fks.2 with
     | some v => if pyTruthy v then _clean_field_value v fks.1 else none
     | none => none)

/-! ## `OutputCleaner.create_final_result` -/

/-- A cleaned value as it is placed in the final dict: a string, or JSON
null for an absent value (`dict.get` returns `None` for a missing key, and
a stored `None` passes through unchanged). -/
def jsonOfCleaned (v : Option (Option String)) : Json :=
  match v with
  | some (some s) => .str s
  | _ => .null

/-- An optional string argument as it is placed in the final dict. -/
def jsonOfOptStr (v : Option String) : Json :=
  match v with
  | some s => .str s
  | none => .null

/-- `OutputCleaner.create_final_result`: the fixed-shape final record.
`image_path` and `profile_image_url` default to `None` in the source; the
"not supplied" case is the `none` argument here. -/
def create_final_result (cleaned_data : List (String × Option String))
    (card_id : Int) (image_path : Option String)
    (profile_image_url : Option String) : List (String × Json) :=
  [("cardId", .num card_id),
   ("name", jsonOfCleaned (dictGet cleaned_data "name")),
   ("phone", jsonOfCleaned (dictGet cleaned_data "phone")),
   ("email", jsonOfCleaned (dictGet cleaned_data "email")),
   ("profile_image_url", jsonOfOptStr profile_image_url),
   ("card_img_url", jsonOfOptStr image_path),
   ("address", jsonOfCleaned (dictGet cleaned_data "address")),
   ("fax", jsonOfCleaned (dictGet cleaned_data "fax")),
   ("position", jsonOfCleaned (dictGet cleaned_data "position")),
   ("company", jsonOfCleaned (dictGet cleaned_data "company")),
   ("social_id", jsonOfCleaned (dictGet cleaned_data "social_id"))]

/-! ## Lemmas about the Python string primitives -/

theorem dropWhile_eq_self_of_head {α : Type} {p : α → Bool} {l : List α}
    (h : ∀ c, l.head? = some c → p c = false) : l.dropWhile p = l := by
  cases l with
  | nil => rfl
  | cons c t => rw [List.dropWhile_cons, h c rfl]; simp

theorem dropWhile_eq_self_of_all {α : Type} {p : α → Bool} {l : List α}
    (h : ∀ c ∈ l, p c = false) : l.dropWhile p = l := by
  cases l with
  | nil => rfl
  | cons x t => rw [List.dropWhile_cons, h x (by simp)]; simp

theorem head?_dropWhile_false {α : Type} {p : α → Bool} {l : List α} :
    ∀ c, (l.dropWhile p).head? = some c → p c = false := by
  induction l with
  | nil => intro c hc; simp at hc
  | cons x t ih =>
    intro c hc
    rw [List.dropWhile_cons] at hc
    by_cases hx : p x = true
    · rw [if_pos hx] at hc; exact ih c hc
    · rw [if_neg hx] at hc
      simp at hc
      subst hc
      simpa using hx

theorem stripL_eq_self {cs : List Char} (h : ∀ c ∈ cs, isPyWs c = false) :
    stripL cs = cs := by
  unfold stripL
  rw [dropWhile_eq_self_of_all h,
    dropWhile_eq_self_of_all (fun c hc => h c (List.mem_reverse.mp hc)), List.reverse_reverse]

theorem dropWhile_stripL (cs : List Char) : (stripL cs).dropWhile isPyWs = stripL cs := by
  unfold stripL
  apply dropWhile_eq_self_of_head
  intro c hc
  rw [List.head?_reverse] at hc
  have hmem : ((cs.dropWhile isPyWs).reverse.dropWhile isPyWs) ≠ [] := by
    intro hnil; rw [hnil] at hc; simp at hc
  have hsplit := List.takeWhile_append_dropWhile isPyWs (cs.dropWhile isPyWs).reverse
  have hlast : ((cs.dropWhile isPyWs).reverse.dropWhile isPyWs).getLast? =
      ((cs.dropWhile isPyWs).reverse).getLast? := by
    conv_rhs => rw [← hsplit]
    exact (List.getLast?_append_of_ne_nil _ hmem).symm
  rw [hc, List.getLast?_reverse] at hlast
  exact head?_dropWhile_false c hlast.symm

theorem dropWhile_reverse_stripL (cs : List Char) :
    (stripL cs).reverse.dropWhile isPyWs = (stripL cs).reverse := by
  unfold stripL
  rw [List.reverse_reverse]
  apply dropWhile_eq_self_of_head
  exact head?_dropWhile_false

theorem stripL_idem (cs : List Char) : stripL (stripL cs) = stripL cs :=
  calc stripL (stripL cs)
      = (((stripL cs).dropWhile isPyWs).reverse.dropWhile isPyWs).reverse := rfl
    _ = ((stripL cs).reverse.dropWhile isPyWs).reverse := by rw [dropWhile_stripL]
    _ = (stripL cs).reverse.reverse := by rw [dropWhile_reverse_stripL]
    _ = stripL cs := List.reverse_reverse _

theorem pyStrip_idem (s : String) : pyStrip (pyStrip s) = pyStrip s := by
  unfold pyStrip
  exact String.ext (stripL_idem s.data)

theorem pyStrip_eq_self {s : String} (h : ∀ c ∈ s.data, isPyWs c = false) :
    pyStrip s = s :=
  String.ext (stripL_eq_self h)

/-- Stripping ignores a newline added on each side. -/
theorem stripL_pad_newline (l : List Char) :
    stripL (('\n' :: l) ++ ['\n']) = stripL l := by
  have hnl : isPyWs '\n' = true := by decide
  unfold stripL
  rw [List.cons_append, List.dropWhile_cons, if_pos hnl, List.dropWhile_append]
  by_cases he : (l.dropWhile isPyWs).isEmpty = true
  · rw [if_pos he]
    have h0 : l.dropWhile isPyWs = [] := by simpa using he
    rw [h0]
    decide
  · rw [if_neg he]
    rw [List.reverse_append]
    simp only [List.reverse_cons, List.reverse_nil, List.nil_append, List.singleton_append]
    rw [List.dropWhile_cons, if_pos hnl]

/-! ## Occurrences of a pattern in a list -/

/-- Where an occurrence of `pat` can sit inside a concatenation: wholly in
the left part, wholly in the right part, or straddling the boundary. -/
theorem occ_cases {α : Type} {l₁ l₂ a pat b : List α}
    (h : l₁ ++ l₂ = a ++ (pat ++ b)) :
    (∃ suf, l₁ = a ++ pat ++ suf ∧ b = suf ++ l₂) ∨
    (∃ mid, a = l₁ ++ mid ∧ l₂ = mid ++ pat ++ b) ∨
    (∃ p₁ p₂, pat = p₁ ++ p₂ ∧ p₁ ≠ [] ∧ p₂ ≠ [] ∧ l₁ = a ++ p₁ ∧ l₂ = p₂ ++ b) := by
  rcases List.append_eq_append_iff.mp h with ⟨mid, ha, hb⟩ | ⟨c', hc, hd⟩
  · exact Or.inr (Or.inl ⟨mid, ha, by rw [hb, List.append_assoc]⟩)
  · rcases List.append_eq_append_iff.mp hd with ⟨a', hca, hba⟩ | ⟨c'', hpc, hlc⟩
    · exact Or.inl ⟨a', by rw [hc, hca, List.append_assoc], hba⟩
    · rcases eq_or_ne c' [] with hc0 | hc0
      · subst hc0
        simp only [List.nil_append] at hpc
        refine Or.inr (Or.inl ⟨[], by simpa using hc.symm, ?_⟩)
        rw [hlc, ← hpc]
        simp
      · rcases eq_or_ne c'' [] with hp0 | hp0
        · subst hp0
          refine Or.inl ⟨[], ?_, by simpa using hlc.symm⟩
          rw [hc, hpc]
          simp
        · exact Or.inr (Or.inr ⟨c', c'', hpc, hc0, hp0, hc, hlc⟩)

/-! ## Soundness and completeness of `findSplit` and `containsSub` -/

theorem findSplit_sound {sep : List Char} :
    ∀ {fuel cs pre post}, findSplit sep fuel cs = some (pre, post) →
      cs = pre ++ sep ++ post := by
  intro fuel
  induction fuel with
  | zero => intro cs pre post h; simp [findSplit] at h
  | succ f ih =>
    intro cs pre post h
    cases cs with
    | nil =>
      simp only [findSplit] at h
      by_cases hp : sep.isPrefixOf ([] : List Char)
      · rw [if_pos hp] at h
        have hsep : sep = [] :=
          List.prefix_nil.mp (List.isPrefixOf_iff_prefix.mp hp)
        simp only [Option.some.injEq, Prod.mk.injEq] at h
        obtain ⟨hpre, hpost⟩ := h
        simp [← hpre, ← hpost, hsep]
      · rw [if_neg hp] at h
        simp at h
    | cons c rest =>
      simp only [findSplit] at h
      by_cases hp : sep.isPrefixOf (c :: rest)
      · rw [if_pos hp] at h
        simp only [Option.some.injEq, Prod.mk.injEq] at h
        obtain ⟨hpre, hpost⟩ := h
        have := List.prefix_iff_eq_append.mp (List.isPrefixOf_iff_prefix.mp hp)
        rw [← hpre, ← hpost]
        simp [this]
      · rw [if_neg hp] at h
        cases hfs : findSplit sep f rest with
        | none => rw [hfs] at h; simp at h
        | some pr =>
          obtain ⟨pre', post'⟩ := pr
          rw [hfs] at h
          simp only [Option.some.injEq, Prod.mk.injEq] at h
          obtain ⟨hpre, hpost⟩ := h
          rw [← hpre, ← hpost]
          simp [ih hfs]

theorem findSplit_isSome {sep : List Char} :
    ∀ (a : List Char) {b fuel}, a.length < fuel →
      (findSplit sep fuel (a ++ sep ++ b)).isSome = true := by
  intro a
  induction a with
  | nil =>
    intro b fuel hf
    cases fuel with
    | zero => omega
    | succ f =>
      simp only [List.nil_append, findSplit]
      rw [if_pos (List.isPrefixOf_iff_prefix.mpr (List.prefix_append sep b))]
      simp
  | cons c a' ih =>
    intro b fuel hf
    cases fuel with
    | zero => omega
    | succ f =>
      rw [List.cons_append, List.cons_append]
      simp only [findSplit]
      by_cases hp : sep.isPrefixOf (c :: (a' ++ sep ++ b))
      · rw [if_pos hp]; simp
      · rw [if_neg hp]
        have hih := @ih b f (by simpa using Nat.lt_of_succ_lt_succ hf)
        cases hfs : findSplit sep f (a' ++ sep ++ b) with
        | none => rw [hfs] at hih; simp at hih
        | some pr =>
          obtain ⟨pre', post'⟩ := pr
          simp [hfs]

theorem containsSub_iff {sep cs : List Char} :
    containsSub sep cs = true ↔ ∃ a b, cs = a ++ sep ++ b := by
  constructor
  · intro h
    unfold containsSub at h
    cases hfs : findSplit sep (cs.length + 1) cs with
    | none => rw [hfs] at h; simp at h
    | some pr => exact ⟨pr.1, pr.2, findSplit_sound (by rw [hfs])⟩
  · rintro ⟨a, b, rfl⟩
    unfold containsSub
    exact findSplit_isSome a (by simp; omega)

theorem findSplit_none {sep : List Char} {cs : List Char}
    (h : ∀ a b, cs ≠ a ++ sep ++ b) : ∀ fuel, findSplit sep fuel cs = none := by
  intro fuel
  cases hfs : findSplit sep fuel cs with
  | none => rfl
  | some pr => exact absurd (findSplit_sound (by rw [hfs])) (h pr.1 pr.2)

theorem containsSub_false {sep cs : List Char}
    (h : ∀ a b, cs ≠ a ++ sep ++ b) : containsSub sep cs = false := by
  unfold containsSub
  rw [findSplit_none h]
  rfl

/-- `findSplit` finds the first occurrence: if no occurrence starts before
`pre`, the split is at `pre`. -/
theorem findSplit_first {sep : List Char} :
    ∀ (pre : List Char) {post fuel},
      (∀ a b, pre ++ sep ++ post = a ++ sep ++ b → pre.length ≤ a.length) →
      pre.length < fuel →
      findSplit sep fuel (pre ++ sep ++ post) = some (pre, post) := by
  intro pre
  induction pre with
  | nil =>
    intro post fuel _ hf
    cases fuel with
    | zero => omega
    | succ f =>
      simp only [List.nil_append, findSplit]
      rw [if_pos (List.isPrefixOf_iff_prefix.mpr (List.prefix_append sep post)),
        List.drop_left]
  | cons c pre' ih =>
    intro post fuel hmin hf
    cases fuel with
    | zero => omega
    | succ f =>
      rw [List.cons_append, List.cons_append]
      simp only [findSplit]
      have hnp : ¬ sep.isPrefixOf (c :: (pre' ++ sep ++ post)) = true := by
        intro hp
        obtain ⟨t, ht⟩ := List.isPrefixOf_iff_prefix.mp hp
        have := hmin [] t (by simp only [List.cons_append, List.nil_append]; exact ht.symm)
        simp at this
      rw [if_neg hnp]
      rw [@ih post f
        (fun a b hab => by
          have := hmin (c :: a) b (by
            simp only [List.cons_append]
            rw [show pre' ++ sep ++ post = a ++ sep ++ b from hab])
          simpa using this)
        (by simpa using Nat.lt_of_succ_lt_succ hf)]

/-- When the separator does not occur, `split` returns the whole string as
its only chunk. -/
theorem pySplitAux_no_occ {sep cs : List Char}
    (h : ∀ a b, cs ≠ a ++ sep ++ b) : ∀ fuel, pySplitAux sep fuel cs = [cs] := by
  intro fuel
  cases fuel with
  | zero => rfl
  | succ f =>
    simp only [pySplitAux]
    rw [findSplit_none h]

/-! ## No occurrence of the fence markers inside a fence-free body -/

theorem not_occ_of_containsSub_false {sep cs : List Char}
    (h : containsSub sep cs = false) : ∀ a b, cs ≠ a ++ sep ++ b := by
  intro a b he
  rw [containsSub_iff.mpr ⟨a, b, he⟩] at h
  simp at h

/-- Every character of the triple-backtick marker. -/
theorem mem_t3_eq_tick : ∀ c ∈ "```".data, c = Char.ofNat 96 := by decide

/-- `"```json"` is the triple backtick followed by `"json"`. -/
theorem pat7_split : "```json".data = "```".data ++ "json".data := by decide

/-- If `j` contains no triple backtick, neither does `'\n' :: j ++ ['\n']`. -/
theorem no_t3_pad {j : List Char} (hj : ∀ a b, j ≠ a ++ "```".data ++ b) :
    ∀ a b, ('\n' :: j) ++ ['\n'] ≠ a ++ "```".data ++ b := by
  intro a b heq
  cases a with
  | nil =>
    rw [List.nil_append, List.cons_append,
      show "```".data = Char.ofNat 96 :: "``".data from by decide, List.cons_append] at heq
    exact absurd (List.cons.injEq .. ▸ heq).1 (by decide)
  | cons x a' =>
    rw [List.cons_append, List.cons_append, List.cons_append] at heq
    injection heq with h1 h2
    rw [List.append_assoc] at h2
    rcases occ_cases h2 with ⟨suf, hjs, _⟩ | ⟨mid, _, hm⟩ | ⟨p₁, p₂, hpat, hp₁, hp₂, hl₁, hl₂⟩
    · exact hj a' suf hjs
    · have := congrArg List.length hm
      simp [List.length_append] at this
      omega
    · cases p₂ with
      | nil => exact hp₂ rfl
      | cons y t =>
        rw [List.cons_append] at hl₂
        injection hl₂ with hy ht
        have hyt : y ∈ "```".data := by
          rw [hpat]
          exact List.mem_append_right _ (by simp)
        rw [← hy] at hyt
        exact absurd (mem_t3_eq_tick _ hyt) (by decide)

/-- If `j` contains no triple backtick, the first (and only) occurrence of
` ``` ` in `'\n' :: j ++ ['\n'] ++ "```"` is the final one. -/
theorem t3_first_at_end {j : List Char} (hj : ∀ a b, j ≠ a ++ "```".data ++ b) :
    ∀ a b, (('\n' :: j) ++ ['\n']) ++ "```".data = a ++ "```".data ++ b →
      (('\n' :: j) ++ ['\n']).length ≤ a.length := by
  intro a b heq
  rw [List.append_assoc a "```".data b] at heq
  rcases occ_cases heq with ⟨suf, hfs, _⟩ | ⟨mid, ham, _⟩ | ⟨p₁, p₂, hpat, hp₁, hp₂, hl₁, hl₂⟩
  · exact absurd hfs (no_t3_pad hj a suf)
  · rw [ham]
    simp
  · exfalso
    have hfront : ((('\n' :: j) ++ ['\n']).getLast?) = some '\n' := by
      rw [List.getLast?_append_of_ne_nil _ (by simp)]
      rfl
    rw [hl₁, List.getLast?_append_of_ne_nil _ hp₁] at hfront
    have hc : '\n' ∈ p₁ := List.mem_of_mem_getLast? hfront
    have : '\n' ∈ "```".data := by
      rw [hpat]
      exact List.mem_append_left _ hc
    exact absurd this (by decide)

/-- If `j` contains no triple backtick, `'\n' :: j ++ ['\n'] ++ "```"`
contains no ` ```json `. -/
theorem no_pat7_in_tail {j : List Char} (hj : ∀ a b, j ≠ a ++ "```".data ++ b) :
    ∀ a b, (('\n' :: j) ++ ['\n']) ++ "```".data ≠ a ++ "```json".data ++ b := by
  intro a b heq
  rw [List.append_assoc a "```json".data b] at heq
  rcases occ_cases heq with ⟨suf, hfs, _⟩ | ⟨mid, _, hm⟩ | ⟨p₁, p₂, hpat, hp₁, hp₂, hl₁, hl₂⟩
  · rw [pat7_split, ← List.append_assoc, List.append_assoc] at hfs
    exact absurd hfs (no_t3_pad hj a ("json".data ++ suf))
  · have := congrArg List.length hm
    simp [List.length_append] at this
    omega
  · have hlast : ("```json".data).getLast? = p₂.getLast? := by
      rw [hpat]
      exact List.getLast?_append_of_ne_nil _ hp₂
    rw [show ("```json".data).getLast? = some 'n' from by decide] at hlast
    have hc : 'n' ∈ p₂ := List.mem_of_mem_getLast? hlast.symm
    have : 'n' ∈ "```".data := by
      rw [hl₂]
      exact List.mem_append_left _ hc
    exact absurd this (by decide)

/-- If `j` contains no triple backtick, it contains no ` ```json ` either. -/
theorem no_pat7_of_no_t3 {j : List Char} (hj : ∀ a b, j ≠ a ++ "```".data ++ b) :
    ∀ a b, j ≠ a ++ "```json".data ++ b := by
  intro a b heq
  rw [pat7_split, ← List.append_assoc, List.append_assoc] at heq
  exact hj a ("json".data ++ b) heq

/-! ## Computing the extraction of a fenced response -/

/-- One step of `split` at the first occurrence of the separator. -/
theorem pySplitAux_first {sep pre post : List Char}
    (hmin : ∀ a b, pre ++ sep ++ post = a ++ sep ++ b → pre.length ≤ a.length) :
    ∀ fuel, 1 ≤ fuel →
      pySplitAux sep fuel (pre ++ sep ++ post) = pre :: pySplitAux sep (fuel - 1) post := by
  intro fuel hf
  cases fuel with
  | zero => omega
  | succ f =>
    simp only [pySplitAux]
    rw [findSplit_first pre hmin (by simp [List.length_append]; omega)]
    simp

/-- `split` on a string with exactly one occurrence of the separator. -/
theorem pySplit_two {sep pre post : List Char}
    (hmin : ∀ a b, pre ++ sep ++ post = a ++ sep ++ b → pre.length ≤ a.length)
    (hno : ∀ a b, post ≠ a ++ sep ++ b) :
    pySplit sep (pre ++ sep ++ post) = [pre, post] := by
  unfold pySplit
  rw [pySplitAux_first hmin _ (by omega)]
  rw [pySplitAux_no_occ hno]

/-- The character data of `wrapJsonFence j`, split after the opener. -/
theorem wrapJsonFence_data (j : String) :
    (wrapJsonFence j).data =
      [] ++ "```json".data ++ ((('\n' :: j.data) ++ ['\n']) ++ "```".data) := by
  unfold wrapJsonFence
  rw [String.data_append, String.data_append]
  rw [show "```json\n".data = "```json".data ++ ['\n'] from by decide,
    show "\n```".data = '\n' :: "```".data from by decide]
  simp

/-- Extraction of a fenced response reduces to the stripped body. -/
theorem extractCandidate_wrap {j : String}
    (hnt : containsSub "```".data j.data = false) :
    extractCandidate (wrapJsonFence j) = pyStrip j := by
  have hj := not_occ_of_containsSub_false hnt
  have hsplit1 : pySplit "```json".data (wrapJsonFence j).data =
      [[], (('\n' :: j.data) ++ ['\n']) ++ "```".data] := by
    rw [wrapJsonFence_data]
    exact pySplit_two (fun a b _ => Nat.zero_le _) (no_pat7_in_tail hj)
  have hsplit2 : pySplit "```".data ((('\n' :: j.data) ++ ['\n']) ++ "```".data) =
      [('\n' :: j.data) ++ ['\n'], []] := by
    rw [show (('\n' :: j.data) ++ ['\n']) ++ "```".data =
        (('\n' :: j.data) ++ ['\n']) ++ "```".data ++ [] from by simp]
    refine pySplit_two (fun a b h => t3_first_at_end hj a b (by simpa using h)) ?_
    intro a b h
    have := congrArg List.length h
    simp [List.length_append] at this
    omega
  have hc : containsSub "```json".data (wrapJsonFence j).data = true :=
    containsSub_iff.mpr
      ⟨[], (('\n' :: j.data) ++ ['\n']) ++ "```".data, wrapJsonFence_data j⟩
  unfold extractCandidate
  rw [if_pos hc, hsplit1]
  rw [show ([[], (('\n' :: j.data) ++ ['\n']) ++ "```".data].getD 1 []) =
      (('\n' :: j.data) ++ ['\n']) ++ "```".data from rfl]
  rw [hsplit2]
  rw [show ([('\n' :: j.data) ++ ['\n'], []].getD 0 []) =
      ('\n' :: j.data) ++ ['\n'] from rfl]
  rw [stripL_pad_newline]
  rfl

/-- Extraction of a fence-free response reduces to the stripped response. -/
theorem extractCandidate_plain {j : String}
    (hnt : containsSub "```".data j.data = false) :
    extractCandidate j = pyStrip j := by
  have hj := not_occ_of_containsSub_false hnt
  have h7 : containsSub "```json".data j.data = false :=
    containsSub_false (no_pat7_of_no_t3 hj)
  unfold extractCandidate
  rw [if_neg (by simp [h7]), if_neg (by simp [hnt])]
  rfl

/-! ## The claims about the extractor -/

/-- C1: for a valid JSON object text `j` containing no triple backtick,
extracting `j` wrapped in a ` ```json ... ``` ` fenced block yields the same
candidate map as extracting `j` unwrapped. -/
theorem extract_fenced_eq_unfenced {j : String} {m : List (String × Json)}
    (hnt : containsSub "```".data j.data = false)
    (hok : extract_json_from_response j = .ok (.obj m)) :
    extract_json_from_response (wrapJsonFence j) = .ok (.obj m) := by
  unfold extract_json_from_response at hok ⊢
  rw [extractCandidate_plain hnt] at hok
  rw [extractCandidate_wrap hnt]
  cases hl : json_loads (pyStrip j) with
  | none => rw [hl] at hok; simp at hok
  | some v => rw [hl] at hok; exact hok

/-- Witness for C1 at a concrete JSON object. -/
theorem extract_fenced_eq_unfenced_witness :
    extract_json_from_response (wrapJsonFence "\x7b\"name\": \"kim\"\x7d") =
      .ok (.obj [("name", .str "kim")]) :=
  extract_fenced_eq_unfenced (by decide) (by rfl)

/-- C2: when the extracted substring does not parse as JSON, extraction
returns the failure record that carries the complete original raw text
(and, being a total function, never raises). -/
theorem extract_malformed_keeps_raw (response : String)
    (h : json_loads (extractCandidate response) = none) :
    extract_json_from_response response = .err response := by
  unfold extract_json_from_response
  rw [h]

/-- Witness for C2 at the spec's unterminated-object example. -/
theorem extract_malformed_keeps_raw_witness :
    extract_json_from_response "\x7b\"name\": " = .err "\x7b\"name\": " :=
  extract_malformed_keeps_raw _ (by rfl)

/-- C3 counterexample: the extractor does NOT require the parsed value to
be a JSON object — the array text `"[1, 2, 3]"` extracts successfully with
an array as its data, which is not an object. -/
theorem extract_array_succeeds_counterexample :
    extract_json_from_response "[1, 2, 3]" = .ok (.arr [.num 1, .num 2, .num 3]) ∧
    ∀ m, Json.arr [.num 1, .num 2, .num 3] ≠ .obj m :=
  ⟨rfl, fun _ h => Json.noConfusion h⟩

/-- C3 amended: extraction succeeds with whatever JSON value the extracted
substring parses to, object or not; the returned data is that value,
unchecked. -/
theorem extract_success_any_value (response : String) (v : Json)
    (h : json_loads (extractCandidate response) = some v) :
    extract_json_from_response response = .ok v := by
  unfold extract_json_from_response
  rw [h]

/-- Witness for the amended C3 at the array input. -/
theorem extract_success_any_value_witness :
    extract_json_from_response "[1, 2, 3]" = .ok (.arr [.num 1, .num 2, .num 3]) :=
  extract_success_any_value _ _ (by rfl)

/-! ## The claims about reconciliation -/

/-- C5: the key-probing loop selects the value of the first alias that is
present with a non-null value (the spec's reconciliation rule), and on
`{"전화번호": "02-000", "phone": "010-999"}` the canonical `phone` resolves
to `"010-999"` — alias `phone` outranks `전화번호`. -/
theorem reconcile_first_alias :
    (∀ cand ks, selectRaw cand ks = specFirstPresentNonNull cand ks) ∧
    dictGet (clean_business_card_data
        [("전화번호", .str "02-000"), ("phone", .str "010-999")]) "phone" =
      some (some "010-999") := by
  refine ⟨fun cand ks => ?_, rfl⟩
  induction ks with
  | nil => rfl
  | cons k rest ih =>
    simp only [selectRaw, specFirstPresentNonNull, List.filterMap_cons] at ih ⊢
    cases h : dictGet cand k with
    | none => simpa using ih
    | some v => cases v <;> simp_all

/-- C4 counterexample: a candidate binding the first `name` alias to the
JSON number `0` cleans to the absence marker, not to the string `"0"`. -/
theorem zero_value_dropped_counterexample :
    dictGet (clean_business_card_data [("name", .num 0)]) "name" = some none ∧
    (some (none : Option String)) ≠ some (some "0") :=
  ⟨rfl, by simp⟩

/-- C4 amended: the alias loop does select a non-null falsy value such as
the number `0`, but the `if value:` truthiness guard then maps the field to
the absence marker instead of handing the value to the normalizer. -/
theorem falsy_selected_value_cleans_to_none (raw : List (String × Json))
    (p : String × List String) (hp : p ∈ field_mapping) (v : Json)
    (hsel : selectRaw raw p.2 = some v) (hfalsy : pyTruthy v = false) :
    dictGet (clean_business_card_data raw) p.1 = some none := by
  fin_cases hp <;>
    simp_all [clean_business_card_data, field_mapping, dictGet]

/-- Witness for the amended C4: candidate `{"name": 0}`. -/
theorem falsy_selected_value_cleans_to_none_witness :
    dictGet (clean_business_card_data [("name", .num 0)]) "name" = some none :=
  falsy_selected_value_cleans_to_none [("name", .num 0)]
    ("name", ["name", "이름", "성명"]) (by simp [field_mapping]) (.num 0)
    (by rfl) (by rfl)

/-! ## The sentinel claim -/

theorem pyLower_eq_empty {s : String} (h : pyLower s = "") : s = "" := by
  apply String.ext
  have := congrArg String.data h
  simp only [pyLower] at this
  exact List.map_eq_nil_iff.mp this

/-- C7: for every canonical field, the values `null`, `""`, `"null"`,
`"N/A"`, `"-"` and `"none"` — in any letter case and with surrounding
whitespace — normalize to the absence marker. -/
theorem sentinel_values_clean_to_none :
    (∀ ft : String, _clean_field_value .null ft = none) ∧
    (∀ ft s : String, pyLower (pyStrip s) ∈ ["", "null", "n/a", "-", "none"] →
      _clean_field_value (.str s) ft = none) := by
  refine ⟨fun ft => rfl, fun ft s hs => ?_⟩
  by_cases hse : s = ""
  · subst hse; rfl
  · unfold _clean_field_value
    rw [if_neg (by simp [isNoneOrEmptyStr, hse])]
    rw [show pyStr (.str s) = s from rfl]
    simp only [List.mem_cons, List.not_mem_nil, or_false] at hs
    rcases hs with h | h | h | h | h
    · rw [if_pos (Or.inl (pyLower_eq_empty h))]
    · rw [if_pos (Or.inr (by rw [h]; decide))]
    · rw [if_pos (Or.inr (by rw [h]; decide))]
    · rw [if_pos (Or.inr (by rw [h]; decide))]
    · rw [if_pos (Or.inr (by rw [h]; decide))]

/-- Witness for C7: the field `phone` with raw value `" N/A "`. -/
theorem sentinel_values_clean_to_none_witness :
    _clean_field_value (.str " N/A ") "phone" = none :=
  sentinel_values_clean_to_none.2 "phone" " N/A " (by decide)

/-! ## Character-level lemmas for the email pattern -/

theorem toNat_ofNat_lt {n : Nat} (h : n < 55296) : (Char.ofNat n).toNat = n := by
  have hv : n.isValidChar := Or.inl h
  simp only [Char.ofNat]
  rw [dif_pos hv]
  show (UInt32.ofNat' n _).toNat = n
  simp [UInt32.ofNat', UInt32.toNat]

theorem toLowerChar_toNat (c : Char) :
    (toLowerChar c).toNat =
      if 65 ≤ c.toNat ∧ c.toNat ≤ 90 then c.toNat + 32 else c.toNat := by
  unfold toLowerChar
  by_cases h : 65 ≤ c.toNat ∧ c.toNat ≤ 90
  · rw [if_pos h, if_pos h, toNat_ofNat_lt (by omega)]
  · rw [if_neg h, if_neg h]

theorem toLowerChar_idem (c : Char) : toLowerChar (toLowerChar c) = toLowerChar c := by
  by_cases h : 65 ≤ c.toNat ∧ c.toNat ≤ 90
  · have h2 : (toLowerChar c).toNat = c.toNat + 32 := by rw [toLowerChar_toNat, if_pos h]
    have h3 : ¬(65 ≤ (toLowerChar c).toNat ∧ (toLowerChar c).toNat ≤ 90) := by
      rw [h2]; omega
    show (if 65 ≤ (toLowerChar c).toNat ∧ (toLowerChar c).toNat ≤ 90 then
        Char.ofNat ((toLowerChar c).toNat + 32) else toLowerChar c) = toLowerChar c
    rw [if_neg h3]
  · have h2 : toLowerChar c = c := if_neg h
    rw [h2]
    exact h2

theorem pyLower_idem (s : String) : pyLower (pyLower s) = pyLower s := by
  apply String.ext
  show (s.data.map toLowerChar).map toLowerChar = s.data.map toLowerChar
  rw [List.map_map]
  exact List.map_congr_left fun c _ => toLowerChar_idem c

theorem isAlphaChar_toLowerChar {c : Char} (h : isAlphaChar c = true) :
    isAlphaChar (toLowerChar c) = true := by
  simp only [isAlphaChar, decide_eq_true_eq] at h ⊢
  rw [toLowerChar_toNat]
  split <;> omega

theorem isLocalChar_toLowerChar {c : Char} (h : isLocalChar c = true) :
    isLocalChar (toLowerChar c) = true := by
  simp only [isLocalChar, isAlphaChar, isDigitChar, Bool.or_eq_true,
    decide_eq_true_eq] at h ⊢
  rw [toLowerChar_toNat]
  split <;> omega

theorem isDomainChar_toLowerChar {c : Char} (h : isDomainChar c = true) :
    isDomainChar (toLowerChar c) = true := by
  simp only [isDomainChar, isAlphaChar, isDigitChar, Bool.or_eq_true,
    decide_eq_true_eq] at h ⊢
  rw [toLowerChar_toNat]
  split <;> omega

theorem isLocalChar_not_ws {c : Char} (h : isLocalChar c = true) : isPyWs c = false := by
  simp only [isLocalChar, isAlphaChar, isDigitChar, Bool.or_eq_true,
    decide_eq_true_eq] at h
  simp only [isPyWs, decide_eq_false_iff_not]
  omega

theorem isDomainChar_not_ws {c : Char} (h : isDomainChar c = true) : isPyWs c = false := by
  simp only [isDomainChar, isAlphaChar, isDigitChar, Bool.or_eq_true,
    decide_eq_true_eq] at h
  simp only [isPyWs, decide_eq_false_iff_not]
  omega

theorem isAlphaChar_not_ws {c : Char} (h : isAlphaChar c = true) : isPyWs c = false := by
  simp only [isAlphaChar, decide_eq_true_eq] at h
  simp only [isPyWs, decide_eq_false_iff_not]
  omega

theorem isLocalChar_ne_at {c : Char} (h : isLocalChar c = true) : (c != '@') = true := by
  simp only [bne_iff_ne, ne_eq]
  intro he
  subst he
  exact absurd h (by decide)

theorem isAlphaChar_ne_dot {c : Char} (h : isAlphaChar c = true) : (c != '.') = true := by
  simp only [bne_iff_ne, ne_eq]
  intro he
  subst he
  exact absurd h (by decide)

theorem takeWhile_dropWhile_middle {α : Type} {p : α → Bool} {l : List α}
    (hl : ∀ c ∈ l, p c = true) {x : α} (hx : p x = false) (rest : List α) :
    (l ++ x :: rest).takeWhile p = l ∧ (l ++ x :: rest).dropWhile p = x :: rest := by
  induction l with
  | nil => simp [List.takeWhile_cons, List.dropWhile_cons, hx]
  | cons c t ih =>
    have hc := hl c (by simp)
    have iht := ih fun d hd => hl d (by simp [hd])
    simp [List.takeWhile_cons, List.dropWhile_cons, hc, iht.1, iht.2]

/-- The decision procedure `matchEmail` decides exactly the anchored regex
`^[a-zA-Z0-9._%+-]+@[a-zA-Z0-9.-]+\.[a-zA-Z]{2,}$`: a match is a
decomposition `local ++ '@' :: (domain ++ '.' :: tld)` with the class and
length constraints. -/
theorem matchEmail_iff {cs : List Char} :
    matchEmail cs = true ↔
      ∃ l d t, cs = l ++ '@' :: (d ++ '.' :: t) ∧ l ≠ [] ∧
        (∀ c ∈ l, isLocalChar c = true) ∧ d ≠ [] ∧
        (∀ c ∈ d, isDomainChar c = true) ∧ 2 ≤ t.length ∧
        (∀ c ∈ t, isAlphaChar c = true) := by
  constructor
  · intro h
    unfold matchEmail at h
    cases hrest : cs.dropWhile (· != '@') with
    | nil => rw [hrest] at h; simp at h
    | cons c r =>
      rw [hrest] at h
      have hc : c = '@' := by
        simpa using head?_dropWhile_false (p := (· != '@')) (l := cs) c (by rw [hrest]; rfl)
      simp only [Bool.and_eq_true] at h
      obtain ⟨⟨hle, hlall⟩, hinner⟩ := h
      cases hrev : r.reverse.dropWhile (· != '.') with
      | nil => rw [hrev] at hinner; simp at hinner
      | cons d dRev =>
        rw [hrev] at hinner
        have hd : d = '.' := by
          simpa using head?_dropWhile_false (p := (· != '.')) (l := r.reverse) d
            (by rw [hrev]; rfl)
        simp only [Bool.and_eq_true, decide_eq_true_eq] at hinner
        obtain ⟨⟨⟨hde, hdall⟩, htlen⟩, htall⟩ := hinner
        refine ⟨cs.takeWhile (· != '@'), dRev.reverse,
          (r.reverse.takeWhile (· != '.')).reverse, ?_, ?_, ?_, ?_, ?_, ?_, ?_⟩
        · conv_lhs => rw [← List.takeWhile_append_dropWhile (p := (· != '@')) (l := cs)]
          rw [hrest, hc]
          congr 1
          have hsplit : r.reverse = r.reverse.takeWhile (· != '.') ++ ('.' :: dRev) := by
            conv_lhs => rw [← List.takeWhile_append_dropWhile (p := (· != '.'))
              (l := r.reverse)]
            rw [hrev, hd]
          have := congrArg List.reverse hsplit
          simpa [List.reverse_append] using this
        · intro h0
          rw [h0] at hle
          simp at hle
        · exact fun c hc => List.all_eq_true.mp hlall c hc
        · intro h0
          rw [show dRev = ([] : List Char) from by simpa using congrArg List.reverse h0]
            at hde
          simp at hde
        · exact fun c hc => List.all_eq_true.mp hdall c (List.mem_reverse.mp hc)
        · simpa using htlen
        · exact fun c hc => List.all_eq_true.mp htall c (List.mem_reverse.mp hc)
  · rintro ⟨l, d, t, rfl, hl0, hlall, hd0, hdall, htlen, htall⟩
    have h1 : ∀ c ∈ l, ((c != '@') = true) := fun c hc => isLocalChar_ne_at (hlall c hc)
    obtain ⟨htw, hdw⟩ :=
      takeWhile_dropWhile_middle (p := (· != '@')) h1 (x := '@') (by decide) (d ++ '.' :: t)
    unfold matchEmail
    rw [hdw]
    have hrrev : (d ++ '.' :: t).reverse = t.reverse ++ '.' :: d.reverse := by
      simp [List.reverse_append]
    have h2 : ∀ c ∈ t.reverse, ((c != '.') = true) :=
      fun c hc => isAlphaChar_ne_dot (htall c (List.mem_reverse.mp hc))
    obtain ⟨htw2, hdw2⟩ :=
      takeWhile_dropWhile_middle (p := (· != '.')) h2 (x := '.') (by decide) d.reverse
    simp only [Bool.and_eq_true, decide_eq_true_eq]
    refine ⟨⟨?_, ?_⟩, ?_⟩
    · rw [htw]; simpa using hl0
    · rw [htw]; exact List.all_eq_true.mpr hlall
    · rw [hrrev, hdw2]
      simp only [Bool.and_eq_true, decide_eq_true_eq]
      refine ⟨⟨⟨?_, ?_⟩, ?_⟩, ?_⟩
      · simpa using hd0
      · exact List.all_eq_true.mpr fun c hc => hdall c (List.mem_reverse.mp hc)
      · rw [htw2]; simpa using htlen
      · rw [htw2]; exact List.all_eq_true.mpr fun c hc => htall c (List.mem_reverse.mp hc)

/-- Lower-casing a matching email still matches (the classes are closed
under lower-casing and the separators are fixed points). -/
theorem matchEmail_map_lower {cs : List Char} (h : matchEmail cs = true) :
    matchEmail (cs.map toLowerChar) = true := by
  rw [matchEmail_iff] at h ⊢
  obtain ⟨l, d, t, rfl, hl0, hlall, hd0, hdall, htlen, htall⟩ := h
  refine ⟨l.map toLowerChar, d.map toLowerChar, t.map toLowerChar, ?_,
    by simpa using hl0, ?_, by simpa using hd0, ?_, by simpa using htlen, ?_⟩
  · simp [show toLowerChar '@' = '@' from by decide,
      show toLowerChar '.' = '.' from by decide]
  · intro c hc
    obtain ⟨c', hc', rfl⟩ := List.mem_map.mp hc
    exact isLocalChar_toLowerChar (hlall c' hc')
  · intro c hc
    obtain ⟨c', hc', rfl⟩ := List.mem_map.mp hc
    exact isDomainChar_toLowerChar (hdall c' hc')
  · intro c hc
    obtain ⟨c', hc', rfl⟩ := List.mem_map.mp hc
    exact isAlphaChar_toLowerChar (htall c' hc')

/-- No character of a matching email is whitespace. -/
theorem matchEmail_not_ws {cs : List Char} (h : matchEmail cs = true) :
    ∀ c ∈ cs, isPyWs c = false := by
  rw [matchEmail_iff] at h
  obtain ⟨l, d, t, rfl, _, hlall, _, hdall, _, htall⟩ := h
  intro c hc
  simp only [List.mem_append, List.mem_cons] at hc
  rcases hc with hc | hc | hc
  · exact isLocalChar_not_ws (hlall c hc)
  · subst hc; decide
  · rcases hc with hc | hc
    · exact isDomainChar_not_ws (hdall c hc)
    · rcases hc with hc | hc
      · subst hc; decide
      · exact isAlphaChar_not_ws (htall c hc)

/-- A matching email contains an `@` and is nonempty. -/
theorem matchEmail_has_at {cs : List Char} (h : matchEmail cs = true) :
    '@' ∈ cs ∧ cs ≠ [] := by
  rw [matchEmail_iff] at h
  obtain ⟨l, d, t, rfl, _, _, _, _, _, _⟩ := h
  constructor
  · exact List.mem_append_right _ (by simp)
  · simp

/-- The sentinel list contains no string with an `@`. -/
theorem contains_sentinels_false_of_at {u : String} (hat : '@' ∈ u.data) :
    (["null", "none", "n/a", "-"].contains u) = false := by
  cases hcin : (["null", "none", "n/a", "-"].contains u) with
  | false => rfl
  | true =>
    exfalso
    obtain ⟨a', ha', hbeq⟩ := List.contains_iff_exists_mem_beq.mp hcin
    have : u = a' := by simpa using hbeq
    subst this
    simp only [List.mem_cons, List.not_mem_nil, or_false] at ha'
    rcases ha' with h | h | h | h <;> (subst h; exact absurd hat (by decide))

/-- What `_clean_email` produces on a match: the lower-cased string, which
is nonempty, free of whitespace at both ends, still a matching email, and
still contains its `@`. -/
theorem email_result_props {w : String} (hm : matchEmail w.data = true) :
    pyLower w ≠ "" ∧ pyStrip (pyLower w) = pyLower w ∧
      matchEmail (pyLower w).data = true ∧ '@' ∈ (pyLower w).data := by
  have hdata : (pyLower w).data = w.data.map toLowerChar := rfl
  have hmatch : matchEmail (pyLower w).data = true := by
    rw [hdata]; exact matchEmail_map_lower hm
  refine ⟨?_, ?_, hmatch, ?_⟩
  · intro h0
    have : (pyLower w).data = [] := by rw [h0]
    rw [hdata, List.map_eq_nil_iff] at this
    exact absurd this (matchEmail_has_at hm).2
  · exact pyStrip_eq_self (matchEmail_not_ws hmatch)
  · exact (matchEmail_has_at hmatch).1

/-- C6: email normalization is idempotent — a value it produces is returned
unchanged when normalized again; `"Foo@Bar.COM"` lower-cases to
`"foo@bar.com"`; a non-matching string like `"not-an-email"` is dropped to
the absence marker rather than kept unnormalized. -/
theorem email_normalization_idempotent :
    (∀ e v : String, _clean_field_value (.str e) "email" = some v →
      _clean_field_value (.str v) "email" = some v) ∧
    _clean_field_value (.str "Foo@Bar.COM") "email" = some "foo@bar.com" ∧
    _clean_field_value (.str "not-an-email") "email" = none := by
  refine ⟨fun e v h => ?_, rfl, rfl⟩
  unfold _clean_field_value at h
  rw [show pyStr (.str e) = e from rfl] at h
  by_cases h1 : isNoneOrEmptyStr (.str e) = true
  · rw [if_pos h1] at h; simp at h
  · rw [if_neg h1] at h
    by_cases h2 : pyStrip e = "" ∨
        (["null", "none", "n/a", "-"].contains (pyLower (pyStrip e)) = true)
    · rw [if_pos h2] at h; simp at h
    · rw [if_neg h2] at h
      rw [if_neg (by decide : ¬(("email" : String) = "phone"))] at h
      rw [if_pos (rfl : ("email" : String) = "email")] at h
      unfold _clean_email at h
      by_cases h3 : matchEmail (pyStrip (pyStrip e)).data = true
      · rw [if_pos h3] at h
        rw [pyStrip_idem] at h3 h
        have hv : pyLower (pyStrip e) = v := Option.some.inj h
        subst hv
        obtain ⟨hne, hstrip, hmatch, hat⟩ := email_result_props h3
        have hlowu : pyLower (pyLower (pyStrip e)) = pyLower (pyStrip e) :=
          pyLower_idem _
        unfold _clean_field_value
        rw [show pyStr (.str (pyLower (pyStrip e))) = pyLower (pyStrip e) from rfl]
        rw [if_neg (by simpa [isNoneOrEmptyStr] using hne)]
        rw [hstrip]
        have hcond : ¬(pyLower (pyStrip e) = "" ∨
            (["null", "none", "n/a", "-"].contains
              (pyLower (pyLower (pyStrip e))) = true)) := by
          rintro (hc | hc)
          · exact hne hc
          · rw [hlowu, contains_sentinels_false_of_at hat] at hc
            simp at hc
        rw [if_neg hcond]
        rw [if_neg (by decide : ¬(("email" : String) = "phone"))]
        rw [if_pos (rfl : ("email" : String) = "email")]
        unfold _clean_email
        rw [hstrip, if_pos hmatch, hlowu]
      · rw [if_neg h3] at h; simp at h

/-- Witness for C6: the idempotence instance at `"Foo@Bar.COM"`. -/
theorem email_normalization_idempotent_witness :
    _clean_field_value (.str "foo@bar.com") "email" = some "foo@bar.com" :=
  email_normalization_idempotent.1 "Foo@Bar.COM" "foo@bar.com" (by rfl)

/-! ## The phone/fax claim -/

theorem phoneKeep_not_ws {c : Char} (h : phoneKeep c = true) : isPyWs c = false := by
  simp only [phoneKeep, isDigitChar, Bool.or_eq_true, decide_eq_true_eq,
    beq_iff_eq] at h
  simp only [isPyWs, decide_eq_false_iff_not]
  rcases h with ((((h | h) | h) | h) | h)
  · omega
  all_goals (subst h; decide)

/-- C8 counterexample: a `fax` value is NOT phone-stripped — it passes
through the generic branch unchanged (up to trimming). -/
theorem fax_not_stripped_counterexample :
    _clean_field_value (.str "Fax: 02-123-4567") "fax" = some "Fax: 02-123-4567" ∧
    (some "Fax: 02-123-4567" : Option String) ≠ some "02-123-4567" :=
  ⟨rfl, by simp⟩

/-- C8 amended: for the `phone` field, normalization keeps exactly the
characters among digits, `+`, `-`, `(`, `)` of the stripped value, in
order, and is Absent when nothing remains; for the `fax` field the value
passes through the generic branch as the stripped string unchanged;
`"Tel: 010-1234-5678"` cleans to `"010-1234-5678"`. -/
theorem phone_stripped_fax_passthrough :
    (∀ s : String, pyStrip s ≠ "" →
      (["null", "none", "n/a", "-"].contains (pyLower (pyStrip s))) = false →
      _clean_field_value (.str s) "phone" =
        (if (pyStrip s).data.filter phoneKeep = [] then none
         else some ⟨(pyStrip s).data.filter phoneKeep⟩)) ∧
    (∀ s : String, pyStrip s ≠ "" →
      (["null", "none", "n/a", "-"].contains (pyLower (pyStrip s))) = false →
      _clean_field_value (.str s) "fax" = some (pyStrip s)) ∧
    _clean_field_value (.str "Tel: 010-1234-5678") "phone" = some "010-1234-5678" := by
  have hguards : ∀ s : String, pyStrip s ≠ "" →
      (["null", "none", "n/a", "-"].contains (pyLower (pyStrip s))) = false →
      ∀ ft : String, _clean_field_value (.str s) ft =
        (if ft = "phone" then _clean_phone_number (pyStrip s)
         else if ft = "email" then _clean_email (pyStrip s)
         else some (pyStrip s)) := by
    intro s hne hsent ft
    unfold _clean_field_value
    rw [show pyStr (.str s) = s from rfl]
    have hs0 : s ≠ "" := by
      intro h0
      subst h0
      exact hne rfl
    rw [if_neg (by simpa [isNoneOrEmptyStr] using hs0)]
    rw [if_neg (by rw [hsent]; simp [hne])]
  refine ⟨fun s hne hsent => ?_, fun s hne hsent => ?_, rfl⟩
  · rw [hguards s hne hsent "phone", if_pos rfl]
    unfold _clean_phone_number
    by_cases h4 : ((⟨(pyStrip s).data.filter phoneKeep⟩ : String) = "")
    · rw [if_pos h4, if_pos (by simpa [String.ext_iff] using h4)]
    · rw [if_neg h4, if_neg (by simpa [String.ext_iff] using h4)]
  · rw [hguards s hne hsent "fax",
      if_neg (by decide : ¬(("fax" : String) = "phone")),
      if_neg (by decide : ¬(("fax" : String) = "email"))]

/-- Witness for the amended C8 at `"Tel: 010-1234-5678"`. -/
theorem phone_stripped_fax_passthrough_witness :
    _clean_field_value (.str "Tel: 010-1234-5678") "phone" =
      (if ("Tel: 010-1234-5678" : String).data.filter phoneKeep = [] then none
       else some ⟨("Tel: 010-1234-5678" : String).data.filter phoneKeep⟩) := by
  have h := phone_stripped_fax_passthrough.1 "Tel: 010-1234-5678"
    (by decide) (by decide)
  rw [show pyStrip "Tel: 010-1234-5678" = "Tel: 010-1234-5678" from by decide] at h
  exact h

/-! ## The assembler claim -/

/-- C9: the assembler always returns a record with exactly the eleven fixed
keys in source order; canonical fields absent in `cleaned` (missing key or
stored `None`) map to an explicit JSON null; `profile_image_url` is null
when not supplied. -/
theorem assembler_fixed_shape :
    ∀ (cleaned : List (String × Option String)) (card_id : Int)
      (image_path profile : Option String),
      ((create_final_result cleaned card_id image_path profile).map Prod.fst =
        ["cardId", "name", "phone", "email", "profile_image_url", "card_img_url",
         "address", "fax", "position", "company", "social_id"]) ∧
      (∀ k ∈ (["name", "phone", "email", "address", "fax", "position", "company",
          "social_id"] : List String),
        dictGet cleaned k = none ∨ dictGet cleaned k = some none →
        dictGet (create_final_result cleaned card_id image_path profile) k =
          some Json.null) ∧
      (profile = none →
        dictGet (create_final_result cleaned card_id image_path profile)
          "profile_image_url" = some Json.null) := by
  intro cleaned card_id image_path profile
  refine ⟨rfl, ?_, ?_⟩
  · intro k hk habs
    fin_cases hk <;>
      (rcases habs with h | h <;> simp_all [create_final_result, dictGet, jsonOfCleaned])
  · intro hp
    subst hp
    simp [create_final_result, dictGet, jsonOfOptStr]

/-- Witness for C9: the empty cleaned record with no profile image. -/
theorem assembler_fixed_shape_witness :
    dictGet (create_final_result [] 1 none none) "name" = some Json.null :=
  (assembler_fixed_shape [] 1 none none).2.1 "name" (by simp) (Or.inl rfl)

/-! ## The output invariant -/

/-- `_clean_field_value` returns either the absence marker or a non-empty
string with no surrounding whitespace, for every input value and field. -/
theorem cfv_invariant (v : Json) (ft : String) :
    _clean_field_value v ft = none ∨
      ∃ s, _clean_field_value v ft = some s ∧ s ≠ "" ∧ pyStrip s = s := by
  unfold _clean_field_value
  by_cases h1 : isNoneOrEmptyStr v = true
  · left; rw [if_pos h1]
  · rw [if_neg h1]
    by_cases h2 : pyStrip (pyStr v) = "" ∨
        (["null", "none", "n/a", "-"].contains (pyLower (pyStrip (pyStr v))) = true)
    · left; rw [if_pos h2]
    · rw [if_neg h2]
      push_neg at h2
      by_cases h3 : ft = "phone"
      · rw [if_pos h3]
        unfold _clean_phone_number
        by_cases h4 : ((⟨(pyStrip (pyStr v)).data.filter phoneKeep⟩ : String) = "")
        · left; rw [if_pos h4]
        · right
          refine ⟨_, by rw [if_neg h4], h4, ?_⟩
          apply pyStrip_eq_self
          intro c hc
          exact phoneKeep_not_ws (List.mem_filter.mp hc).2
      · rw [if_neg h3]
        by_cases h5 : ft = "email"
        · rw [if_pos h5]
          unfold _clean_email
          rw [pyStrip_idem]
          by_cases h6 : matchEmail (pyStrip (pyStr v)).data = true
          · right
            obtain ⟨hne, hstrip, _, _⟩ := email_result_props h6
            exact ⟨_, by rw [if_pos h6], hne, hstrip⟩
          · left; rw [if_neg h6]
        · rw [if_neg h5]
          right
          exact ⟨_, rfl, h2.1, pyStrip_idem _⟩

/-- C10: reconciliation plus normalization is a total function whose output
binds exactly the eight canonical fields, in order, each to the absence
marker or to a non-empty string with no leading or trailing whitespace. -/
theorem clean_output_invariant :
    ∀ raw_data : List (String × Json),
      ((clean_business_card_data raw_data).map Prod.fst =
        ["name", "phone", "email", "social_id", "position", "company",
         "address", "fax"]) ∧
      (∀ kv ∈ clean_business_card_data raw_data,
        kv.2 = none ∨ ∃ s, kv.2 = some s ∧ s ≠ "" ∧ pyStrip s = s) := by
  intro raw
  refine ⟨rfl, ?_⟩
  intro kv hkv
  unfold clean_business_card_data at hkv
  obtain ⟨fks, _, rfl⟩ := List.mem_map.mp hkv
  cases hsel : selectRaw raw fks.2 with
  | none => exact Or.inl (by simp [hsel])
  | some v =>
    by_cases ht : pyTruthy v = true
    · rcases cfv_invariant v fks.1 with hnone | ⟨s, hs, hs1, hs2⟩
      · exact Or.inl (by simp [hsel, ht, hnone])
      · exact Or.inr ⟨s, by simp [hsel, ht, hs], hs1, hs2⟩
    · exact Or.inl (by simp [hsel, ht])

/-- Witness for C10 at a one-entry candidate map. -/
theorem clean_output_invariant_witness :
    (("name", some "Kim") : String × Option String).2 = none ∨
      ∃ s, (("name", some "Kim") : String × Option String).2 = some s ∧
        s ≠ "" ∧ pyStrip s = s :=
  (clean_output_invariant [("name", .str " Kim ")]).2 ("name", some "Kim") (by decide)
